import Mathlib

/-!
Shallow embedding of the acebase `FullTextIndex` (fulltext-index.ts) and proofs
about its tokenizer, index-maintenance diff, `_occurs_` metadata codec, query
dispatch, OR-branch merging, wildcard pruning, zero-count early return and
phrase checking.

JavaScript strings are modelled as `List Char` (all relevant strings are ASCII,
so bytes, UTF-16 units and characters coincide); JavaScript numbers appearing
in decoded metadata are modelled as `Option Nat`, with `none` standing for NaN.
-/

namespace FullText

/-- A JavaScript number produced by `parseInt`: `none` models `NaN`.
`Array.prototype.includes` uses SameValueZero, under which `NaN` equals `NaN`,
so plain `Option` equality is the faithful membership test. -/
abbrev JSNum := Option Nat

/-- `NaN + 1 = NaN`, otherwise ordinary successor. -/
def jsAdd1 : JSNum → JSNum
  | none => none
  | some v => some (v + 1)

/-- Adding a natural number `i` to a JS number; `NaN` propagates. -/
def jsAddN (p : JSNum) (i : Nat) : JSNum :=
  match p with
  | none => none
  | some v => some (v + i)

/-! ## The `_occurs_` metadata codec

`handleRecordUpdate` (and `build`) store, for each posted word, the metadata
field `_occurs_ = wordInfo.indexes.join(',')`, truncated at
`occurs.lastIndexOf(',', 255)` when longer than 255 characters
(fulltext-index.ts lines 538-546 and 594-599). -/

/-- The character for a single decimal digit `d < 10`. -/
def digitChar (d : Nat) : Char := Char.ofNat (48 + d)

/-- Little-endian base-10 digits, structurally recursive on a fuel bound so
that concrete values evaluate; agrees with `Nat.digits 10` (see
`decDigitsAux_eq_digits`). -/
def decDigitsAux : Nat → Nat → List Nat
  | 0, _ => []
  | fuel + 1, n => if n = 0 then [] else (n % 10) :: decDigitsAux fuel (n / 10)

/-- Decimal rendering of a natural number, as JavaScript's number-to-string
conversion produces for integers (most significant digit first). -/
def decDigits (n : Nat) : List Char :=
  if n = 0 then ['0'] else ((decDigitsAux n n).reverse.map digitChar)

/-- `indexes.join(',')`: decimal renderings joined by single commas. -/
def joinComma : List Nat → List Char
  | [] => []
  | [n] => decDigits n
  | n :: rest => decDigits n ++ ',' :: joinComma rest

/-- `s.lastIndexOf(',', k)`: the largest index `i ≤ k` with `s[i] = ','`,
`none` when there is no such index (JS returns `-1`). -/
def lastCommaLE : List Char → Nat → Option Nat
  | [], _ => none
  | c :: _, 0 => if c = ',' then some 0 else none
  | c :: rest, k + 1 =>
    match lastCommaLE rest k with
    | some j => some (j + 1)
    | none => if c = ',' then some 0 else none

/-- The `_occurs_` string stored for a word with position list `indexes`:
the comma-join, cut at the last comma at or before index 255 when longer than
255 characters.  When no such comma exists, `cutIndex` is `-1` and
`occurs.slice(0, -1)` drops the final character. -/
def encodeOccurs (indexes : List Nat) : List Char :=
  let occurs := joinComma indexes
  if occurs.length > 255 then
    match lastCommaLE occurs 255 with
    | some cutIndex => occurs.take cutIndex
    | none => occurs.take (occurs.length - 1)
  else occurs

/-- `s.split(',')` on a JS string: list of comma-separated fields.
`"".split(',')` is `[""]`. -/
def splitComma : List Char → List (List Char)
  | [] => [[]]
  | c :: rest =>
    if c = ',' then [] :: splitComma rest
    else
      match splitComma rest with
      | [] => [[c]]
      | f :: fs => (c :: f) :: fs

/-- Base-10 parse of a field of decimal digits (the specified decoding). -/
def parseDec (field : List Char) : Nat :=
  Nat.ofDigits 10 ((field.map (fun c => c.toNat - 48)).reverse)

/-- Decoding an `_occurs_` string as the specification describes it:
split on commas and parse every field as a base-10 integer. -/
def decodeFields (s : List Char) : List Nat :=
  (splitComma s).map parseDec

/-- The numeric value of a decimal digit character, `none` otherwise. -/
def digitVal (c : Char) : Option Nat :=
  if 48 ≤ c.toNat ∧ c.toNat ≤ 57 then some (c.toNat - 48) else none

/-- JavaScript `parseInt(s, radix)` restricted to digit strings (the only
inputs occurring here): an explicit radix of `0` or `undefined` means 10, a
radix outside `[2, 36]` yields `NaN`, otherwise the longest prefix of digits
valid in the radix is parsed and an empty prefix yields `NaN`. -/
def jsParseInt (s : List Char) (radix : Nat) : JSNum :=
  let r := if radix = 0 then 10 else radix
  if r < 2 ∨ 36 < r then none
  else
    let ds := s.takeWhile (fun c =>
      match digitVal c with
      | some d => decide (d < r)
      | none => false)
    match ds with
    | [] => none
    | _ :: _ => some (ds.foldl (fun a c => a * r + ((digitVal c).getD 0)) 0)

/-- The decoding the phrase checker actually performs
(fulltext-index.ts line 926): `(s as string).split(',').map(parseInt)`.
`Array.prototype.map` passes the element index as `parseInt`'s second
argument, so field `i` is parsed with radix `i`. -/
def decodeOccurs (s : List Char) : List JSNum :=
  (splitComma s).enum.map (fun p => jsParseInt p.2 p.1)

/-! ## The phrase check inside `contains` (fulltext-index.ts lines 913-955)

When `options.phrase === true` and more than one word survived, the final
result set is reduced to the matches whose per-word decoded `_occurs_` lists
(in original query word order) contain a run of consecutive positions.  The
decoded lists are `List JSNum` because `map(parseInt)` can produce `NaN`. -/

/-- The recursive branch of `check(wordMatchIndex, prevWordIndex)`: for each
remaining word in order, `sourceIndexes.includes(prevWordIndex + 1)` must hold,
with the incremented position carried along; reaching the last word yields
success. -/
def phraseCheckGo : List (List JSNum) → JSNum → Bool
  | [], _ => true
  | occ :: rest, prev =>
    if occ.contains (jsAdd1 prev) then phraseCheckGo rest (jsAdd1 prev) else false

/-- `check(0)`: try each entry of the first word's decoded list as the start
position and succeed on the first one whose run verifies. -/
def phraseCheck : List (List JSNum) → Bool
  | [] => false
  | first :: rest => first.any (fun p => phraseCheckGo rest p)

/-- A candidate record in the phrase-check step: its path together with the
decoded `_occurs_` lists of every query word for this record, indexed in the
original query word order. -/
structure PhraseCand where
  path : String
  occursLists : List (List JSNum)
deriving DecidableEq

/-- The `results.reduce` of the phrase-check step: keep exactly the candidates
passing `check(0)`. -/
def phraseKeep (cands : List PhraseCand) : List PhraseCand :=
  cands.filter (fun c => phraseCheck c.occursLists)

/-! ## Tokenizer data model (fulltext-index.ts lines 13-272) -/

/-- `WordInfo`: one normalized word with its positions among kept words and
its source character offsets. -/
structure WordInfo where
  word : String
  indexes : List Nat
  sourceIndexes : List Nat
deriving DecidableEq

/-- `WordInfo.occurs` is `indexes.length`. -/
def WordInfo.occurs (w : WordInfo) : Nat := w.indexes.length

/-- `TextInfo`: the `words` map (entries in insertion order, keys unique for
tokenizer output) and the deduplicated `ignored` list. -/
structure TextInfo where
  words : List WordInfo
  ignored : List String
deriving DecidableEq

/-- `TextInfo.getWordInfo` / `words.get(word)`. -/
def getWordInfo (ti : TextInfo) (w : String) : Option WordInfo :=
  ti.words.find? (fun e => e.word == w)

/-- The index list of a word, `[]` when the word is absent. -/
def wordIndexes (ti : TextInfo) (w : String) : List Nat :=
  ((getWordInfo ti w).map (fun e => e.indexes)).getD []

/-- `TextInfo.toArray`: the unique words in insertion order. -/
def toArray (ti : TextInfo) : List String :=
  ti.words.map (fun e => e.word)

/-- `TextInfo.wordCount`: the loop `total += wordInfo.occurs`. -/
def wordCount (ti : TextInfo) : Nat :=
  ti.words.foldl (fun total e => total + e.occurs) 0

/-! ## `handleRecordUpdate` word diff (fulltext-index.ts lines 505-551) -/

/-- JS `oldInfo.indexes.some((index, i) => newInfo.indexes[i] !== index)`:
element `i` of the old list is compared with element `i` of the new list,
where reading past the end of the new list gives `undefined`, which differs
from every number. -/
def someIdxMismatch : List Nat → List Nat → Bool
  | [], _ => false
  | x :: xs, ys => (some x != ys.head?) || someIdxMismatch xs ys.tail

/-- The condition of the `changed` filter:
`oldInfo.occurs !== newInfo.occurs || oldInfo.indexes.some(...)`. -/
def changedCond (oldIdx newIdx : List Nat) : Bool :=
  (oldIdx.length != newIdx.length) || someIdxMismatch oldIdx newIdx

/-- The per-word substrate operations issued by one `handleRecordUpdate` call:
`removed` words are delegated as removals, `added` words as additions carrying
their `_occurs_` metadata string.  The call awaits all of them. -/
structure UpdateOps where
  removed : List String
  added : List (String × List Char)
deriving DecidableEq

/-- `const removed = oldWords.filter(word => newWords.indexOf(word) < 0)`. -/
def removedWords (oldInfo newInfo : TextInfo) : List String :=
  (toArray oldInfo).filter (fun w => !((toArray newInfo).contains w))

/-- `const added = newWords.filter(word => oldWords.indexOf(word) < 0)`. -/
def addedWords (oldInfo newInfo : TextInfo) : List String :=
  (toArray newInfo).filter (fun w => !((toArray oldInfo).contains w))

/-- `const changed = oldWords.filter(...).filter(...)`: words present in both
texts whose occurrence count or index lists differ under the code's check. -/
def changedWords (oldInfo newInfo : TextInfo) : List String :=
  ((toArray oldInfo).filter (fun w => (toArray newInfo).contains w)).filter
    (fun w => changedCond (wordIndexes oldInfo w) (wordIndexes newInfo w))

/-- The word-diff logic of `handleRecordUpdate(path, oldValue, newValue)`
after both sides are tokenized: `changed` is appended to both `removed` and
`added`; every added word carries `encodeOccurs` of its new index list. -/
def handleRecordUpdate (oldInfo newInfo : TextInfo) : UpdateOps :=
  { removed := removedWords oldInfo newInfo ++ changedWords oldInfo newInfo
    added := (addedWords oldInfo newInfo ++ changedWords oldInfo newInfo).map
      (fun w => (w, encodeOccurs (wordIndexes newInfo w))) }

/-! ## OR branches in `contains` (fulltext-index.ts lines 695-720) -/

/-- A query hint attached to a result set (`FullTextIndexQueryHint`). -/
structure QueryHint where
  type : String
  word : String
deriving DecidableEq

/-- One match record of a result set: its path and its `_occurs_` metadata
string (the only metadata this index stores). -/
structure QueryResult where
  path : String
  occurs : List Char
deriving DecidableEq

/-- An `IndexQueryResults`: the ordered matches plus the hints list. -/
structure QRes where
  results : List QueryResult
  hints : List QueryHint
deriving DecidableEq

/-- The index of the leftmost occurrence of `' OR '` in `s`, `none` when
absent (the `-1` of JS `indexOf`). -/
def findOR : List Char → Option Nat
  | [] => none
  | c :: rest =>
    if [' ', 'O', 'R', ' '].isPrefixOf (c :: rest) then some 0
    else (findOR rest).map (fun i => i + 1)

/-- `val.split(' OR ')`: split at every non-overlapping occurrence, scanning
left to right.  The fuel argument only bounds the recursion; `length + 1`
always suffices because every step consumes at least the separator. -/
def splitORAux : Nat → List Char → List (List Char)
  | 0, s => [s]
  | fuel + 1, s =>
    match findOR s with
    | none => [s]
    | some i => s.take i :: splitORAux fuel (s.drop (i + 4))

/-- `val.split(' OR ')`. -/
def splitOR (s : List Char) : List (List Char) :=
  splitORAux (s.length + 1) s

/-- The merge loop of the OR path: starting from the accumulated set, push
each result of the next set whose path is not yet present
(`~merged.findIndex(r => r.path === result.path)`). -/
def mergeInto (merged : List QueryResult) (results : List QueryResult) : List QueryResult :=
  results.foldl (fun m r => if m.any (fun x => x.path == r.path) then m else m ++ [r]) merged

/-- Merging the branch result sets: union by record path preserving the order
of first occurrence, with the hints of all branches concatenated in branch
order onto the merged result. -/
def mergeOrSets : List QRes → QRes
  | [] => { results := [], hints := [] }
  | first :: rest =>
    { results := rest.foldl (fun m set => mergeInto m set.results) first.results
      hints := (first :: rest).foldl (fun hs set => hs ++ set.hints) [] }

/-- The OR-branch path of `contains(op, val)`: when `val` includes `' OR '`,
split into branches, run each branch through the recursive query (the oracle
`q`, which stands for the substrate-dependent recursive `this.query` call) and
merge.  `none` when `val` has no `' OR '` (the code proceeds to the phrase and
bare-words paths). -/
def containsOR (q : List Char → QRes) (val : List Char) : Option QRes :=
  if (findOR val).isSome then some (mergeOrSets ((splitOR val).map q)) else none

/-- A concrete branch-query oracle realizable by an index over one record
whose text is just `x`: the branch query `x` matches it, the branches
`x OR`, `OR y` and `y` do not (they require words absent from the record). -/
def qOne : List Char → QRes := fun s =>
  if s = ['x'] then { results := [{ path := "r1", occurs := ['0'] }], hints := [] }
  else { results := [], hints := [] }

/-! ## Wildcard pruning in `contains`'s `getTextInfo` (lines 671-692) -/

/-- `/^[*?]+$/.test(w)`: nonempty and consisting only of `*` and `?`. -/
def isWildcardsOnly (w : String) : Bool :=
  !w.data.isEmpty && w.data.all (fun c => c == '*' || c == '?')

/-- The mutable state of the pruning loops: the `TextInfo`'s words map and its
ignored list.  The `words` snapshot array obtained from `info.toArray()`
before the loop is carried separately because the loop never mutates it. -/
structure PruneState where
  words : List WordInfo
  ignored : List String
deriving DecidableEq

/-- The loop `while (i = words.findIndex(w => /^[*?]+$/.test(w)), i >= 0)`:
it re-scans the immutable snapshot `arr` after every iteration, pushing the
found word onto `ignored` and deleting it from the map.  `fuel` bounds the
number of iterations; `none` models non-termination. -/
def wildcardLoop : Nat → List String → PruneState → Option PruneState
  | 0, _, _ => none
  | fuel + 1, arr, st =>
    match arr.find? isWildcardsOnly with
    | none => some st
    | some w =>
      wildcardLoop fuel arr
        { words := st.words.filter (fun e => !(e.word == w))
          ignored := st.ignored ++ [w] }

/-- `word.indexOf('*')` as an option (`none` for `-1`). -/
def starIndex (w : String) : Option Nat :=
  w.data.findIdx? (fun c => c == '*')

/-- The second pruning loop: for every word of the snapshot whose first `*`
sits at an index that is positive and smaller than
`minimumWildcardWordLength`, push it onto `ignored` and delete it from the
map.  A word whose first `*` is at index `0` is left untouched because of the
`starIndex > 0` conjunct. -/
def minWildcardPrune (minLen : Nat) (arr : List String) (st : PruneState) : PruneState :=
  if 0 < minLen then
    arr.foldl (fun st w =>
      match starIndex w with
      | some si =>
        if 0 < si ∧ si < minLen then
          { words := st.words.filter (fun e => !(e.word == w))
            ignored := st.ignored ++ [w] }
        else st
      | none => st) st
  else st

/-! ## The bare-words contains path (fulltext-index.ts lines 772-965) -/

/-- One entry of the `counts` array: a surviving query word and its substrate
`count(op, word)` result. -/
structure CountEntry where
  word : String
  count : Nat
deriving DecidableEq

/-- `counts.sort((a, b) => a.count < b.count ? -1 : a.count > b.count ? 1 : 0)`:
JavaScript's sort is stable, so the result is the stable ascending reordering
by count, which insertion sort with `≤` produces. -/
def sortCounts (l : List CountEntry) : List CountEntry :=
  l.insertionSort (fun a b => a.count ≤ b.count)

/-- The sorted count entries for the surviving words. -/
def sortedCounts (words : List String) (count : String → Nat) : List CountEntry :=
  sortCounts (words.map (fun w => { word := w, count := count w }))

instance : IsTotal CountEntry (fun a b => a.count ≤ b.count) :=
  ⟨fun a b => Nat.le_total a.count b.count⟩

instance : IsTrans CountEntry (fun a b => a.count ≤ b.count) :=
  ⟨fun _ _ _ hab hbc => le_trans hab hbc⟩

/-- `FullTextIndexQueryHint.types.ignoredWord` hint for a word. -/
def ignoredHint (w : String) : QueryHint := { type := "ignoredWord", word := w }

/-- `FullTextIndexQueryHint.types.missingWord` hint for a word. -/
def missingHint (w : String) : QueryHint := { type := "missingWord", word := w }

/-- The sequential `nextWord` loop: query each sorted word in turn, passing
the previous result set as the substrate filter (`none` on the first word:
the `results` variable is still undefined), and stop early when a result set
comes back empty.  Returns the final result set together with the per-word
result sets for the words actually queried, in query order. -/
def queryChain (qf : String → Option (List QueryResult) → List QueryResult) :
    List String → Option (List QueryResult) →
      List QueryResult × List (String × List QueryResult)
  | [], filt => (filt.getD [], [])
  | w :: rest, filt =>
    let fr := qf w filt
    if fr.isEmpty then (fr, [(w, fr)])
    else
      let next := queryChain qf rest (some fr)
      (next.1, (w, fr) :: next.2)

/-- The decoded `_occurs_` lists of a record in one per-word result set
(`results.find(result => result.path === path)` followed by the
`split(',').map(parseInt)` conversion).  A missing record would make the code
throw; it is unreachable because the final results are filtered through every
per-word set. -/
def occursOf (results : List QueryResult) (path : String) : List JSNum :=
  match results.find? (fun r => r.path == path) with
  | some r => decodeOccurs r.occurs
  | none => []

/-- The phrase-check step of the bare-words path: keep the final results whose
per-word decoded position lists (looked up per query word, in original word
order) pass `check(0)`. -/
def phraseStep (words : List String) (sets : List (String × List QueryResult))
    (results : List QueryResult) : List QueryResult :=
  results.filter (fun m =>
    phraseCheck (words.map (fun w => occursOf ((sets.lookup w).getD []) m.path)))

/-- Everything one bare-words `contains` execution produces: the result set,
its hints, the cache writes `(op, val)` performed, and the words for which a
substrate `query` call was issued (`count` calls are separate). -/
structure BareOutcome where
  results : List QueryResult
  hints : List QueryHint
  cacheWrites : List (String × String)
  substrateQueries : List String
deriving DecidableEq

/-- The bare-words path of `contains(op, val)` after tokenization: with no
surviving words, resolve empty (with ignored-word hints, no caching); after
counting, when the smallest count is zero, resolve empty with ignored-word
hints plus one missing-word hint per zero-count entry, cache, and issue no
substrate query; otherwise run the sequential query chain over the sorted
words, apply the phrase check when requested and more than one word survived,
attach ignored-word hints and cache. -/
def bareContains (op val : String) (ignored : List String) (words : List String)
    (count : String → Nat)
    (qf : String → Option (List QueryResult) → List QueryResult)
    (phrase : Bool) : BareOutcome :=
  if words.isEmpty then
    { results := [], hints := ignored.map ignoredHint
      cacheWrites := [], substrateQueries := [] }
  else
    let counts := sortedCounts words count
    if (counts.head?.map (fun c => c.count)) = some 0 then
      { results := []
        hints := ignored.map ignoredHint
          ++ (counts.filter (fun c => c.count == 0)).map (fun c => missingHint c.word)
        cacheWrites := [(op, val)]
        substrateQueries := [] }
    else
      let allWords := counts.map (fun c => c.word)
      let chain := queryChain qf allWords none
      let finalResults :=
        if phrase && decide (1 < allWords.length) then phraseStep words chain.2 chain.1
        else chain.1
      { results := finalResults
        hints := ignored.map ignoredHint
        cacheWrites := [(op, val)]
        substrateQueries := chain.2.map (fun p => p.1) }

/-! ## The tokenizer match loop (fulltext-index.ts lines 217-269) -/

/-- The options of the tokenizer loop after locale and pattern resolution:
the optional stemming callback (a `none` result models a non-string return),
the locale-aware lowercasing function, the length bounds and the effective
blacklist and whitelist.  The raw regex match stream is passed separately. -/
structure TokenizeOptions where
  stemming : Option (String → Option String)
  lower : String → String
  minLength : Nat
  maxLength : Nat
  blacklist : List String
  whitelist : List String

/-- Appending one occurrence `(wordIndex, sourceIndex)` to the `WordInfo` of
`w`, creating the entry at the end when absent (a JS `Map` keeps insertion
order). -/
def addOccur : List WordInfo → String → Nat → Nat → List WordInfo
  | [], w, wi, si => [{ word := w, indexes := [wi], sourceIndexes := [si] }]
  | e :: rest, w, wi, si =>
    if e.word = w then
      { word := e.word, indexes := e.indexes ++ [wi]
        sourceIndexes := e.sourceIndexes ++ [si] } :: rest
    else e :: addOccur rest w wi si

/-- `if (this.ignored.indexOf(word) < 0) { this.ignored.push(word); }`. -/
def pushIgnored (ignored : List String) (w : String) : List String :=
  if ignored.contains w then ignored else ignored ++ [w]

/-- The running state of the match loop: the words map, the ignored list and
the `wordIndex` counter (incremented only when a word is kept). -/
structure TokenizeState where
  words : List WordInfo
  ignored : List String
  wordIndex : Nat

/-- Keeping a word: append the occurrence and advance the word index. -/
def keepWord (st : TokenizeState) (w : String) (si : Nat) : TokenizeState :=
  { words := addOccur st.words w st.wordIndex si
    ignored := st.ignored
    wordIndex := st.wordIndex + 1 }

/-- The criteria part of the loop body, after stemming produced `w1`: locale
lowercasing, then the min-length/blacklist check with its whitelist override
(ignored words do not advance the word index), then max-length truncation in
the remaining case, then keeping the word. -/
def criteriaStep (opts : TokenizeOptions) (st : TokenizeState) (w1 : String) (si : Nat) :
    TokenizeState :=
  let word := opts.lower w1
  if word.length < opts.minLength ∨ opts.blacklist.contains word then
    if opts.whitelist.contains word then keepWord st word si
    else { st with ignored := pushIgnored st.ignored word }
  else keepWord st (if opts.maxLength < word.length then word.take opts.maxLength else word) si

/-- One iteration of the match loop on the raw match `(word, match.index)`:
stemming first (a non-string result records the raw word as ignored without
advancing the word index), then the criteria step. -/
def processMatch (opts : TokenizeOptions) (st : TokenizeState) (m : String × Nat) :
    TokenizeState :=
  match (match opts.stemming with | none => some m.1 | some f => f m.1) with
  | none => { st with ignored := pushIgnored st.ignored m.1 }
  | some w1 => criteriaStep opts st w1 m.2

/-- The whole match loop over the regex match stream, starting from the empty
`TextInfo` (the match stream abstracts the configurable regex: the
constructor iterates `re.exec`). -/
def tokenize (opts : TokenizeOptions) (ms : List (String × Nat)) : TextInfo :=
  let final := ms.foldl (processMatch opts)
    { words := [], ignored := [], wordIndex := 0 }
  { words := final.words, ignored := final.ignored }

/-- The loop invariant of the match loop: all index lists strictly increasing
and bounded by the word counter, index sets pairwise disjoint across entries,
and `indexes` and `sourceIndexes` of equal length. -/
def StInv (st : TokenizeState) : Prop :=
  (∀ e ∈ st.words, List.Chain' (· < ·) e.indexes)
  ∧ (∀ e ∈ st.words, ∀ i ∈ e.indexes, i < st.wordIndex)
  ∧ st.words.Pairwise (fun e1 e2 => ∀ i, i ∈ e1.indexes → i ∉ e2.indexes)
  ∧ (∀ e ∈ st.words, e.indexes.length = e.sourceIndexes.length)

/-! ## `FullTextIndex.test` (fulltext-index.ts lines 401-479) -/

/-- `TextInfo.toSequence()`: rebuild the word array by writing each word at
its indexes (later writes win, as JS assignment does) and reading the slots
in index order, skipping unassigned slots (the iteration methods applied to
the result skip array holes). -/
def toSequence (ti : TextInfo) : List String :=
  let pairs := ti.words.foldl
    (fun acc e => acc ++ e.indexes.map (fun i => (i, e.word))) ([] : List (Nat × String))
  let n := pairs.foldl (fun m p => max m (p.1 + 1)) 0
  (List.range n).filterMap
    (fun i => ((pairs.filter (fun p => p.1 == i)).getLast?).map (fun p => p.2))

/-- `Array.prototype.some` over a callback whose evaluation may yield no value
(exhausted fuel or a thrown error, both modelled as `none`). -/
def anyOption {α : Type} (f : α → Option Bool) : List α → Option Bool
  | [] => some false
  | x :: xs =>
    match f x with
    | none => none
    | some true => some true
    | some false => anyOption f xs

/-- `Array.prototype.every`, with the same `none` propagation. -/
def allOption {α : Type} (f : α → Option Bool) : List α → Option Bool
  | [] => some true
  | x :: xs =>
    match f x with
    | none => none
    | some false => some false
    | some true => allOption f xs

/-- The first index of `'"'` in `s` (`none` for `-1`). -/
def quoteIdx : List Char → Option Nat
  | [] => none
  | c :: rest => if c = '"' then some 0 else (quoteIdx rest).map (fun i => i + 1)

/-- The leftmost match of the non-greedy `/"(.+?)"/`: the position `p` of the
opening quote together with the position `j ≥ p + 2` of the nearest closing
quote leaving a non-empty group. -/
def findQuoted : List Char → Option (Nat × Nat)
  | [] => none
  | c :: rest =>
    if c = '"' then
      match quoteIdx (rest.drop 1) with
      | some r => some (0, 2 + r)
      | none => (findQuoted rest).map (fun pj => (pj.1 + 1, pj.2 + 1))
    else (findQuoted rest).map (fun pj => (pj.1 + 1, pj.2 + 1))

/-- The phrase-extraction loop shared by `test` and `contains`: while the
phrase regex matches, record the group and excise the whole match from the
value.  Each iteration removes at least three characters, so `length + 1`
fuel always suffices. -/
def extractPhrasesAux : Nat → List Char → List (List Char) × List Char
  | 0, s => ([], s)
  | fuel + 1, s =>
    match findQuoted s with
    | none => ([], s)
    | some pj =>
      let phrase := (s.drop (pj.1 + 1)).take (pj.2 - pj.1 - 1)
      let rest := s.take pj.1 ++ s.drop (pj.2 + 1)
      let next := extractPhrasesAux fuel rest
      (phrase :: next.1, next.2)

/-- `test`'s phrase extraction over `val`. -/
def extractPhrases (s : List Char) : List (List Char) × List Char :=
  extractPhrasesAux (s.length + 1) s

mutual
/-- `hasSequenceAtIndex(wordIndex, occurrenceIndex)` of `test`'s phrase
check, with its off-by-one recursion `wordIndex + i` (`i` being the index
within the slice starting at `wordIndex + 1`), which can recurse forever on
cyclic occurrence data; exhausted fuel returns `none`. -/
def hasSeq (opw : List (List Nat)) : Nat → Nat → Nat → Option Bool
  | 0, _, _ => none
  | fuel + 1, wordIndex, occurrenceIndex =>
    hasSeqEvery opw fuel wordIndex
      ((opw.get? wordIndex).bind (fun l => l.get? occurrenceIndex))
      ((opw.drop (wordIndex + 1)).enum)
termination_by fuel _ _ => (fuel, 0, 0)

/-- The `.every` over the sliced per-word occurrence lists. -/
def hasSeqEvery (opw : List (List Nat)) : Nat → Nat → Option Nat →
    List (Nat × List Nat) → Option Bool
  | _, _, _, [] => some true
  | fuel, wordIndex, startIndex, (i, occ) :: rest =>
    match hasSeqSome opw fuel wordIndex startIndex i occ.enum with
    | none => none
    | some false => some false
    | some true => hasSeqEvery opw fuel wordIndex startIndex rest
termination_by fuel _ _ l => (fuel, 2, l.length)

/-- The `.some` over one occurrence list: recurse only on occurrences equal
to `startIndex + 1` (`undefined + 1` is `NaN` and equals nothing). -/
def hasSeqSome (opw : List (List Nat)) : Nat → Nat → Option Nat → Nat →
    List (Nat × Nat) → Option Bool
  | _, _, _, _, [] => some false
  | fuel, wordIndex, startIndex, i, (j, idx) :: rest =>
    if some idx = startIndex.map (fun v => v + 1) then
      match hasSeq opw fuel (wordIndex + i) j with
      | none => none
      | some true => some true
      | some false => hasSeqSome opw fuel wordIndex startIndex i rest
    else hasSeqSome opw fuel wordIndex startIndex i rest
termination_by fuel _ _ _ l => (fuel, 1, l.length)
end

/-- One phrase check within `test`: tokenize the phrase, look up each phrase
word's index list in the text (destructuring `undefined` throws: `none`),
then try a sequence from each occurrence of the first word
(`occurrencesPerWord[0]` on an empty array also throws). -/
def testPhrase (getInfo : List Char → TextInfo) (textInfo : TextInfo) (fuel : Nat)
    (phrase : List Char) : Option Bool :=
  let phraseWords := toSequence (getInfo phrase)
  match phraseWords.mapM (fun w => (getWordInfo textInfo w).map (fun e => e.indexes)) with
  | none => none
  | some opw =>
    match opw with
    | [] => none
    | first :: _ => anyOption (fun p => hasSeq opw fuel 0 p.1) first.enum

/-- The bare-words branch of `test`: every tokenized query word must be a key
of the text's words map. -/
def testBare (getInfo : List Char → TextInfo) (textInfo : TextInfo) (val : List Char) :
    Bool :=
  (toSequence (getInfo val)).all (fun word => (getWordInfo textInfo word).isSome)

/-- The two operators accepted by `test`. -/
inductive FtOp where
  | contains
  | notContains
deriving DecidableEq

/-- A JavaScript value as `test` sees it: `null`, a string, a number (what a
string's `length` property yields), or an object. -/
inductive JValue where
  | vnull : JValue
  | vstr : List Char → JValue
  | vnum : Nat → JValue
  | vobj : List (String × JValue) → JValue

/-- `obj === null`. -/
def isNull : JValue → Bool
  | .vnull => true
  | _ => false

/-- The canonical array-index keys of JS string exotic objects: the decimal
rendering of a natural number, with no leading zero except `"0"` itself
(`String(Number(key)) === key`). -/
def arrayIndexKey? (key : String) : Option Nat :=
  match key.data with
  | [] => none
  | c :: rest =>
    if (c :: rest).all (fun ch => decide ('0' ≤ ch) && decide (ch ≤ '9'))
        && !(c == '0' && !rest.isEmpty) then
      some (parseDec (c :: rest))
    else none

/-- JS property lookup on a primitive string: `'length'` yields the length,
a canonical in-range numeric index yields the one-character string, and any
other key is looked up on `String.prototype`, modelled by the realm oracle
`proto` (the prototype's member set is host-defined and mutable at run
time). -/
def strGet (proto : String → Option JValue) (s : List Char) (key : String) :
    Option JValue :=
  if key = "length" then some (JValue.vnum s.length)
  else
    match arrayIndexKey? key with
    | some i =>
      match s.get? i with
      | some c => some (JValue.vstr [c])
      | none => proto key
    | none => proto key

/-- `obj[key]`: `none` models `undefined`.  An object looks up its own
fields; a string consults its own `length`/index properties and then
`String.prototype`; a number or `null` never reaches this lookup with a
defined result in the scenarios modelled here. -/
def objGet (proto : String → Option JValue) (v : JValue) (key : String) :
    Option JValue :=
  match v with
  | .vobj fields => fields.lookup key
  | .vstr s => strGet proto s key
  | _ => none

/-- `FullTextIndex.test(obj, op, val)`: `null` and objects without the key
match only `'fulltext:!contains'`; a defined non-string text makes
`getTextInfo` throw before the operator dispatch (`unidecode` calls
`text.replace`), modelled as `none`; with `'fulltext:contains'`, a value
with `' OR '` recurses over the branches passing the extracted text value in
place of the record object, quoted phrases use the phrase check, and
otherwise every query word must occur in the text.  With
`'fulltext:!contains'` and present text the function falls through and
returns `undefined`; that, throws and exhausted fuel are all `none`. -/
def testFn (proto : String → Option JValue) (key : String)
    (getInfo : List Char → TextInfo) :
    Nat → JValue → FtOp → List Char → Option Bool
  | 0, _, _, _ => none
  | fuel + 1, obj, op, val =>
    if isNull obj then some (op == FtOp.notContains)
    else
      match objGet proto obj key with
      | none => some (op == FtOp.notContains)
      | some text =>
        match text with
        | JValue.vstr ts =>
          match op with
          | FtOp.notContains => none
          | FtOp.contains =>
            if (findOR val).isSome then
              anyOption (fun branch =>
                testFn proto key getInfo fuel (JValue.vstr ts) FtOp.contains branch)
                (splitOR val)
            else if val.contains '"' then
              let textInfo := getInfo ts
              let ep := extractPhrases val
              let phrases := if 0 < ep.2.length then ep.1 ++ [ep.2] else ep.1
              allOption (fun phrase => testPhrase getInfo textInfo fuel phrase) phrases
            else
              some (testBare getInfo (getInfo ts) val)
        | _ => none

/-- A tokenizer oracle agreeing with the real tokenizer on the single-word
text `a` (the only value it is applied to in the C10 counterexample). -/
def getInfoA : List Char → TextInfo := fun s =>
  if s = ['a'] then
    { words := [{ word := "a", indexes := [0], sourceIndexes := [0] }], ignored := [] }
  else { words := [], ignored := [] }

/-! ## `FullTextIndex.query` operator dispatch (fulltext-index.ts lines 619-629) -/

/-- The argument of `query`: either a `BlacklistingSearchOperator` instance or
an operator string. -/
inductive QueryOpArg where
  | blacklisting
  | str (op : String)
deriving DecidableEq

/-- The two errors `query` can throw before touching the substrate. -/
inductive QueryError where
  | notImplemented
  | unsupportedOperator
deriving DecidableEq

/-- `FullTextIndex.validOperators`. -/
def validOperators : List String := ["fulltext:contains", "fulltext:!contains"]

/-- `FullTextIndex.query(op, val)`: a `BlacklistingSearchOperator` throws
not-implemented, a valid operator string delegates to `contains`, any other
string throws unsupported-operator.  The `ok` payload records the delegation
`(op, val)` to `contains`; the error branches return before any substrate
interaction. -/
def queryDispatch (op : QueryOpArg) (val : String) : Except QueryError (String × String) :=
  match op with
  | .blacklisting => .error .notImplemented
  | .str s =>
    if s = "fulltext:contains" ∨ s = "fulltext:!contains" then .ok (s, val)
    else .error .unsupportedOperator

/-! # Theorems -/

theorem jsAddN_zero (p : JSNum) : jsAddN p 0 = p := by
  cases p <;> rfl

theorem jsAddN_add_one (p : JSNum) (j : Nat) : jsAddN p (j + 1) = jsAdd1 (jsAddN p j) := by
  cases p with
  | none => rfl
  | some v => simp only [jsAddN, jsAdd1, Option.some.injEq]; omega

theorem jsAddN_jsAdd1 (p : JSNum) (j : Nat) : jsAddN (jsAdd1 p) j = jsAddN p (j + 1) := by
  cases p with
  | none => rfl
  | some v => simp only [jsAddN, jsAdd1, Option.some.injEq]; omega

theorem phraseCheckGo_iff (rest : List (List JSNum)) (p : JSNum) :
    phraseCheckGo rest p = true ↔
      ∀ j (hj : j < rest.length), (rest.get ⟨j, hj⟩).contains (jsAddN p (j + 1)) = true := by
  induction rest generalizing p with
  | nil => simp [phraseCheckGo]
  | cons occ rest ih =>
    rw [phraseCheckGo]
    by_cases hmem : occ.contains (jsAdd1 p) = true
    · rw [if_pos hmem]
      rw [ih (jsAdd1 p)]
      constructor
      · intro h j hj
        match j with
        | 0 => simpa [jsAddN_add_one, jsAddN_zero] using hmem
        | j + 1 =>
          have := h j (by simpa using Nat.lt_of_succ_lt_succ hj)
          simpa [jsAddN_jsAdd1] using this
      · intro h j hj
        have := h (j + 1) (by simpa using Nat.succ_lt_succ hj)
        simpa [jsAddN_jsAdd1] using this
    · rw [if_neg hmem]
      constructor
      · intro h
        exact absurd h (by simp)
      · intro h
        have h0 : occ.contains (jsAddN p (0 + 1)) = true := h 0 (by simp)
        have he : jsAddN p (0 + 1) = jsAdd1 p := by cases p <;> rfl
        rw [he] at h0
        exact absurd h0 hmem

/-- C1: with `phrase=true` and `k ≥ 2` surviving words, a candidate record that
appears in every per-word result set is kept by the phrase-check reduction if
and only if there exists a position `p` such that for every `i ∈ [0,k)` the
value `p+i` is a member of the decoded `_occurs_` list `P[i]` of query word
`i` for that record (`P` indexed in original query word order); the search
tries each entry of `P[0]` as start position and succeeds on the first match,
which is exactly this existential. -/
theorem phraseKeep_iff (cands : List PhraseCand) (c : PhraseCand) (hc : c ∈ cands)
    (first : List JSNum) (rest : List (List JSNum)) (hP : c.occursLists = first :: rest)
    (_hk : rest ≠ []) :
    c ∈ phraseKeep cands ↔
      ∃ p : JSNum, ∀ i (hi : i < c.occursLists.length),
        (c.occursLists.get ⟨i, hi⟩).contains (jsAddN p i) = true := by
  have hmem : c ∈ phraseKeep cands ↔ phraseCheck c.occursLists = true := by
    unfold phraseKeep
    rw [List.mem_filter]
    exact ⟨fun h => h.2, fun h => ⟨hc, h⟩⟩
  rw [hmem, hP]
  rw [phraseCheck, List.any_eq_true]
  constructor
  · rintro ⟨p, hpfirst, hgo⟩
    refine ⟨p, ?_⟩
    intro i hi
    match i with
    | 0 =>
      simp only [List.get, jsAddN_zero]
      exact List.elem_eq_true_of_mem hpfirst
    | i + 1 =>
      have := (phraseCheckGo_iff rest p).mp hgo i (by simpa using Nat.lt_of_succ_lt_succ hi)
      simpa using this
  · rintro ⟨p, hall⟩
    have h0 := hall 0 (by simp)
    simp only [List.get, jsAddN_zero] at h0
    refine ⟨p, by simpa using h0, ?_⟩
    rw [phraseCheckGo_iff]
    intro j hj
    have := hall (j + 1) (by simpa using Nat.succ_lt_succ hj)
    simpa using this

/-- Witness for C1: a two-word phrase candidate with positions `0` and `1`. -/
theorem phraseKeep_iff_witness :
    ((⟨"r1", [[some 0], [some 1]]⟩ : PhraseCand) ∈
        phraseKeep [⟨"r1", [[some 0], [some 1]]⟩] ↔
      ∃ p : JSNum, ∀ i (hi : i < ([[some 0], [some 1]] : List (List JSNum)).length),
        (([[some 0], [some 1]] : List (List JSNum)).get ⟨i, hi⟩).contains
          (jsAddN p i) = true) :=
  phraseKeep_iff [⟨"r1", [[some 0], [some 1]]⟩] ⟨"r1", [[some 0], [some 1]]⟩
    (List.mem_singleton.mpr rfl) [some 0] [[some 1]] rfl (by simp)

theorem changedCond_eq_true_iff (a b : List Nat) : changedCond a b = true ↔ a ≠ b := by
  induction a generalizing b with
  | nil =>
    cases b <;> simp [changedCond, someIdxMismatch]
  | cons x xs ih =>
    cases b with
    | nil => simp [changedCond, someIdxMismatch]
    | cons y ys =>
      have h := ih ys
      simp only [changedCond, Bool.or_eq_true, bne_iff_ne, ne_eq] at h
      simp only [changedCond, someIdxMismatch, List.head?_cons, List.tail_cons,
        Bool.or_eq_true, bne_iff_ne, ne_eq, List.length_cons, Option.some.injEq,
        List.cons.injEq, not_and, add_left_inj]
      constructor
      · rintro (hlen | hx | hs)
        · intro hxy hxs
          exact hlen (by rw [hxs])
        · intro hxy
          exact absurd hxy hx
        · intro _ hxs
          exact (h.mp (Or.inr hs)) hxs
      · intro hne
        by_cases hxy : x = y
        · have hxs : xs ≠ ys := fun hxs => hne hxy hxs
          rcases h.mpr hxs with hlen | hs
          · exact Or.inl hlen
          · exact Or.inr (Or.inr hs)
        · exact Or.inr (Or.inl hxy)

theorem changedWords_eq (oldInfo newInfo : TextInfo) :
    changedWords oldInfo newInfo
      = ((toArray oldInfo).filter (fun w => (toArray newInfo).contains w)).filter
        (fun w => decide (wordIndexes oldInfo w ≠ wordIndexes newInfo w)) := by
  apply List.filter_congr
  intro w _
  have h1 := changedCond_eq_true_iff (wordIndexes oldInfo w) (wordIndexes newInfo w)
  by_cases hne : wordIndexes oldInfo w ≠ wordIndexes newInfo w
  · rw [h1.mpr hne, decide_eq_true hne]
  · rw [decide_eq_false hne, Bool.eq_false_iff]
    intro hc
    exact hne (h1.mp hc)

/-- C2: for a `handleRecordUpdate` call, the words removed from the substrate
are exactly `oldWords \ newWords` together with the changed set, the words
added are exactly `newWords \ oldWords` together with the changed set, and
the changed set consists of the words in both texts whose occurrence counts
or index lists differ (the code's count-or-elementwise comparison is exactly
list inequality); the pure model returns the complete list of per-word
substrate operations that the call awaits. -/
theorem handleRecordUpdate_spec (oldInfo newInfo : TextInfo) :
    ∃ changed : List String,
      changed = ((toArray oldInfo).filter (fun w => (toArray newInfo).contains w)).filter
          (fun w => decide (wordIndexes oldInfo w ≠ wordIndexes newInfo w))
      ∧ (handleRecordUpdate oldInfo newInfo).removed
          = (toArray oldInfo).filter (fun w => !((toArray newInfo).contains w)) ++ changed
      ∧ (handleRecordUpdate oldInfo newInfo).added.map (fun p => p.1)
          = (toArray newInfo).filter (fun w => !((toArray oldInfo).contains w)) ++ changed := by
  refine ⟨((toArray oldInfo).filter (fun w => (toArray newInfo).contains w)).filter
      (fun w => decide (wordIndexes oldInfo w ≠ wordIndexes newInfo w)), rfl, ?_, ?_⟩
  · show removedWords oldInfo newInfo ++ changedWords oldInfo newInfo = _
    rw [changedWords_eq]
    rfl
  · show ((addedWords oldInfo newInfo ++ changedWords oldInfo newInfo).map
        (fun w => (w, encodeOccurs (wordIndexes newInfo w)))).map (fun p => p.1) = _
    rw [List.map_map]
    have hcomp : ((fun p : String × List Char => p.1)
        ∘ fun w => (w, encodeOccurs (wordIndexes newInfo w))) = fun w : String => w := rfl
    rw [hcomp, List.map_id', changedWords_eq]
    rfl

/-! ### Codec lemmas -/

theorem decDigitsAux_eq_digits :
    ∀ (fuel n : Nat), n ≤ fuel → decDigitsAux fuel n = Nat.digits 10 n := by
  intro fuel
  induction fuel with
  | zero =>
    intro n hn
    interval_cases n
    simp [decDigitsAux]
  | succ f ih =>
    intro n hn
    by_cases h0 : n = 0
    · subst h0
      simp [decDigitsAux]
    · rw [decDigitsAux, if_neg h0,
        Nat.digits_def' (by norm_num : (1:Nat) < 10) (Nat.pos_of_ne_zero h0)]
      congr 1
      apply ih
      have := Nat.div_lt_self (Nat.pos_of_ne_zero h0) (by norm_num : 1 < 10)
      omega

theorem decDigits_eq (n : Nat) :
    decDigits n = if n = 0 then ['0'] else ((Nat.digits 10 n).reverse.map digitChar) := by
  rw [decDigits, decDigitsAux_eq_digits n n le_rfl]

theorem digitChar_toNat (d : Nat) (h : d < 10) : (digitChar d).toNat = 48 + d := by
  interval_cases d <;> decide

theorem digitChar_ne_comma (d : Nat) (h : d < 10) : digitChar d ≠ ',' := by
  interval_cases d <;> decide

theorem decDigits_comma_free (n : Nat) : ∀ c ∈ decDigits n, c ≠ ',' := by
  rw [decDigits_eq]
  by_cases h0 : n = 0
  · rw [if_pos h0]
    intro c hc
    have : c = '0' := by simpa using hc
    rw [this]
    decide
  · rw [if_neg h0]
    intro c hc
    rw [List.mem_map] at hc
    obtain ⟨d, hd, rfl⟩ := hc
    rw [List.mem_reverse] at hd
    exact digitChar_ne_comma d (Nat.digits_lt_base (by norm_num) hd)

theorem decDigits_ne_nil (n : Nat) : decDigits n ≠ [] := by
  rw [decDigits_eq]
  by_cases h0 : n = 0
  · rw [if_pos h0]
    simp
  · rw [if_neg h0]
    intro hcon
    rw [List.map_eq_nil_iff, List.reverse_eq_nil_iff] at hcon
    exact (Nat.digits_ne_nil_iff_ne_zero.mpr h0) hcon

theorem parseDec_decDigits (n : Nat) : parseDec (decDigits n) = n := by
  by_cases h0 : n = 0
  · subst h0
    decide
  · rw [decDigits_eq, if_neg h0, parseDec]
    have hmap : (((Nat.digits 10 n).reverse.map digitChar).map (fun c => c.toNat - 48))
        = (Nat.digits 10 n).reverse := by
      rw [List.map_map]
      have h2 : ∀ d ∈ (Nat.digits 10 n).reverse,
          ((fun c : Char => c.toNat - 48) ∘ digitChar) d = d := by
        intro d hd
        rw [List.mem_reverse] at hd
        have hlt := Nat.digits_lt_base (by norm_num) hd
        simp [Function.comp, digitChar_toNat d hlt]
      rw [List.map_congr_left h2, List.map_id']
    rw [hmap, List.reverse_reverse, Nat.ofDigits_digits]

theorem joinComma_cons_cons (a b : Nat) (l : List Nat) :
    joinComma (a :: b :: l) = decDigits a ++ ',' :: joinComma (b :: l) := rfl

theorem joinComma_ne_nil : ∀ (l : List Nat), l ≠ [] → joinComma l ≠ []
  | [], h => absurd rfl h
  | [n], _ => by
    show decDigits n ≠ []
    exact decDigits_ne_nil n
  | a :: b :: t, _ => by
    rw [joinComma_cons_cons]
    simp

theorem lastCommaLE_le : ∀ (s : List Char) (k c : Nat), lastCommaLE s k = some c → c ≤ k
  | [], k, c, h => absurd h (by simp [lastCommaLE])
  | ch :: rest, 0, c, h => by
    by_cases hch : ch = ','
    · rw [lastCommaLE, if_pos hch] at h
      injection h with h
      omega
    · rw [lastCommaLE, if_neg hch] at h
      exact absurd h (by simp)
  | ch :: rest, k + 1, c, h => by
    rw [lastCommaLE] at h
    cases hrec : lastCommaLE rest k with
    | some j =>
      rw [hrec] at h
      injection h with h
      have := lastCommaLE_le rest k j hrec
      omega
    | none =>
      rw [hrec] at h
      by_cases hch : ch = ','
      · rw [if_pos hch] at h
        injection h with h
        omega
      · rw [if_neg hch] at h
        exact absurd h (by simp)

theorem lastCommaLE_comma_free :
    ∀ (s : List Char), (∀ c ∈ s, c ≠ ',') → ∀ k, lastCommaLE s k = none
  | [], _, _ => rfl
  | ch :: rest, h, 0 => by
    have hch : ch ≠ ',' := h ch (by simp)
    rw [lastCommaLE, if_neg hch]
  | ch :: rest, h, k + 1 => by
    have hch : ch ≠ ',' := h ch (by simp)
    have h2 : ∀ c ∈ rest, c ≠ ',' := fun c hc => h c (by simp [hc])
    rw [lastCommaLE, lastCommaLE_comma_free rest h2 k]
    show (if ch = ',' then some 0 else none) = none
    rw [if_neg hch]

theorem lastCommaLE_cons_comma (t : List Char) (k : Nat) : lastCommaLE (',' :: t) k ≠ none := by
  match k with
  | 0 =>
    rw [lastCommaLE, if_pos rfl]
    simp
  | k + 1 =>
    rw [lastCommaLE]
    cases lastCommaLE t k <;> simp

theorem lastCommaLE_append :
    ∀ (d : List Char), (∀ c ∈ d, c ≠ ',') → ∀ (s : List Char) (k : Nat),
      lastCommaLE (d ++ s) k
        = if d.length ≤ k then (lastCommaLE s (k - d.length)).map (fun j => j + d.length)
          else none
  | [], _, s, k => by
    simp only [List.nil_append, List.length_nil, Nat.zero_le, if_true, Nat.sub_zero]
    cases lastCommaLE s k <;> simp
  | ch :: d, hd, s, k => by
    have hch : ch ≠ ',' := hd ch (by simp)
    have hd2 : ∀ c ∈ d, c ≠ ',' := fun c hc => hd c (by simp [hc])
    match k with
    | 0 =>
      rw [List.cons_append, lastCommaLE, if_neg hch,
        if_neg (by simp : ¬ (ch :: d).length ≤ 0)]
    | k + 1 =>
      rw [List.cons_append, lastCommaLE, lastCommaLE_append d hd2 s k]
      by_cases hlen : d.length ≤ k
      · have hlen2 : (ch :: d).length ≤ k + 1 := Nat.add_le_add_right hlen 1
        have hsub : k + 1 - (ch :: d).length = k - d.length := by
          show k + 1 - (d.length + 1) = k - d.length
          omega
        rw [if_pos hlen, if_pos hlen2, hsub]
        cases lastCommaLE s (k - d.length) with
        | some j =>
          simp only [Option.map_some']
          show some (j + d.length + 1) = some (j + (d.length + 1))
          rw [Nat.add_assoc]
        | none =>
          simp only [Option.map_none']
          show (if ch = ',' then some 0 else none) = none
          rw [if_neg hch]
      · have hlen2 : ¬ (ch :: d).length ≤ k + 1 := by
          show ¬ d.length + 1 ≤ k + 1
          omega
        rw [if_neg hlen, if_neg hlen2]
        show (if ch = ',' then some 0 else none) = none
        rw [if_neg hch]

theorem take_one_cons_cons (a b : Nat) (t : List Nat) : (a :: b :: t).take 1 = [a] := rfl

theorem lastCommaLE_joinComma :
    ∀ (l : List Nat) (k c : Nat),
      lastCommaLE (joinComma l) k = some c →
      ∃ j, 1 ≤ j ∧ j < l.length ∧ c = (joinComma (l.take j)).length
        ∧ (joinComma l).take c = joinComma (l.take j)
  | [], k, c, h => absurd h (by simp [joinComma, lastCommaLE])
  | [n], k, c, h => by
    rw [show joinComma [n] = decDigits n from rfl,
      lastCommaLE_comma_free _ (decDigits_comma_free n) k] at h
    exact absurd h (by simp)
  | a :: b :: t, k, c, h => by
    rw [joinComma_cons_cons,
      lastCommaLE_append (decDigits a) (decDigits_comma_free a) _ k] at h
    by_cases hlen : (decDigits a).length ≤ k
    case neg =>
      rw [if_neg hlen] at h
      exact absurd h (by simp)
    rw [if_pos hlen] at h
    have hfirst : ∀ hcm : c = (decDigits a).length,
        ∃ j, 1 ≤ j ∧ j < (a :: b :: t).length ∧ c = (joinComma ((a :: b :: t).take j)).length
          ∧ (joinComma (a :: b :: t)).take c = joinComma ((a :: b :: t).take j) := by
      intro hcm
      refine ⟨1, le_rfl, by simp, ?_, ?_⟩
      · rw [take_one_cons_cons]
        exact hcm
      · rw [joinComma_cons_cons, hcm, List.take_left, take_one_cons_cons]
        rfl
    cases hmk : k - (decDigits a).length with
    | zero =>
      rw [hmk, lastCommaLE, if_pos rfl] at h
      simp only [Option.map_some'] at h
      injection h with h
      exact hfirst (by omega)
    | succ m =>
      rw [hmk, lastCommaLE] at h
      cases hrec : lastCommaLE (joinComma (b :: t)) m with
      | none =>
        rw [hrec] at h
        have h2 : Option.map (fun j => j + (decDigits a).length)
            (if (',' : Char) = ',' then some 0 else none) = some c := h
        rw [if_pos rfl] at h2
        simp only [Option.map_some'] at h2
        injection h2 with h2
        exact hfirst (by omega)
      | some j1 =>
        rw [hrec] at h
        have h2 : Option.map (fun j => j + (decDigits a).length)
            (some (j1 + 1)) = some c := h
        simp only [Option.map_some'] at h2
        injection h2 with h
        obtain ⟨j2, hj1, hjlt, hclen, htake⟩ := lastCommaLE_joinComma (b :: t) m j1 hrec
        obtain ⟨j2p, rfl⟩ : ∃ j2p, j2 = j2p + 1 := ⟨j2 - 1, by omega⟩
        refine ⟨j2p + 2, by omega, ?_, ?_, ?_⟩
        · simp only [List.length_cons] at hjlt ⊢
          omega
        · show c = (joinComma ((a :: b :: t).take (j2p + 2))).length
          rw [show (a :: b :: t).take (j2p + 2) = a :: (b :: t).take (j2p + 1) from rfl]
          rw [show (b :: t).take (j2p + 1) = b :: t.take j2p from rfl]
          rw [joinComma_cons_cons, List.length_append, List.length_cons]
          rw [show (b :: t).take (j2p + 1) = b :: t.take j2p from rfl] at hclen
          omega
        · rw [joinComma_cons_cons]
          rw [show c = (decDigits a).length + (j1 + 1) from by omega]
          rw [List.take_append]
          rw [show (',' :: joinComma (b :: t)).take (j1 + 1)
              = ',' :: (joinComma (b :: t)).take j1 from rfl]
          rw [htake]
          rw [show (a :: b :: t).take (j2p + 2) = a :: (b :: t).take (j2p + 1) from rfl]
          rw [show (b :: t).take (j2p + 1) = b :: t.take j2p from rfl]
          rw [joinComma_cons_cons]

theorem splitComma_comma_free : ∀ (s : List Char), (∀ c ∈ s, c ≠ ',') → splitComma s = [s]
  | [], _ => rfl
  | ch :: rest, h => by
    have hch : ch ≠ ',' := h ch (by simp)
    have h2 : ∀ c ∈ rest, c ≠ ',' := fun c hc => h c (by simp [hc])
    show (if ch = ',' then [] :: splitComma rest
          else match splitComma rest with
               | [] => [[ch]]
               | f :: fs => (ch :: f) :: fs) = [ch :: rest]
    rw [if_neg hch, splitComma_comma_free rest h2]

theorem splitComma_append :
    ∀ (a : List Char), (∀ c ∈ a, c ≠ ',') → ∀ (t : List Char),
      splitComma (a ++ ',' :: t) = a :: splitComma t
  | [], _, t => by
    rw [List.nil_append]
    show (if (',' : Char) = ',' then [] :: splitComma t
          else match splitComma t with
               | [] => [[',']]
               | f :: fs => (',' :: f) :: fs) = [] :: splitComma t
    rw [if_pos rfl]
  | ch :: a, h, t => by
    have hch : ch ≠ ',' := h ch (by simp)
    have h2 : ∀ c ∈ a, c ≠ ',' := fun c hc => h c (by simp [hc])
    rw [List.cons_append]
    show (if ch = ',' then [] :: splitComma (a ++ ',' :: t)
          else match splitComma (a ++ ',' :: t) with
               | [] => [[ch]]
               | f :: fs => (ch :: f) :: fs) = (ch :: a) :: splitComma t
    rw [if_neg hch, splitComma_append a h2 t]

theorem splitComma_joinComma :
    ∀ (l : List Nat), l ≠ [] → splitComma (joinComma l) = l.map decDigits
  | [], h => absurd rfl h
  | [n], _ => by
    show splitComma (decDigits n) = [decDigits n]
    exact splitComma_comma_free _ (decDigits_comma_free n)
  | a :: b :: t, _ => by
    rw [joinComma_cons_cons, splitComma_append (decDigits a) (decDigits_comma_free a),
      splitComma_joinComma (b :: t) (by simp)]
    rfl

theorem decodeFields_joinComma (l : List Nat) (h : l ≠ []) :
    decodeFields (joinComma l) = l := by
  rw [decodeFields, splitComma_joinComma l h, List.map_map]
  have h2 : ∀ x ∈ l, (parseDec ∘ decDigits) x = x := fun x _ => parseDec_decDigits x
  rw [List.map_congr_left h2, List.map_id']

theorem joinComma_getLast_ne_comma :
    ∀ (l : List Nat), l ≠ [] → ∀ c, (joinComma l).getLast? = some c → c ≠ ','
  | [], h => absurd rfl h
  | [n], _ => by
    intro c hc
    rw [show joinComma [n] = decDigits n from rfl,
      List.getLast?_eq_getLast_of_ne_nil (decDigits_ne_nil n)] at hc
    injection hc with hc
    exact decDigits_comma_free n _ (hc ▸ List.getLast_mem (decDigits_ne_nil n))
  | a :: b :: t, _ => by
    intro c hc
    rw [joinComma_cons_cons, List.getLast?_append_cons] at hc
    have hne := joinComma_ne_nil (b :: t) (by simp)
    obtain ⟨x, xs, hT⟩ := List.exists_cons_of_ne_nil hne
    rw [hT, List.getLast?_cons_cons] at hc
    exact joinComma_getLast_ne_comma (b :: t) (by simp) c (by rw [hT]; exact hc)

theorem decDigits_length_le (n : Nat) (h : n < 10 ^ 16) : (decDigits n).length ≤ 16 := by
  rw [decDigits_eq]
  by_cases h0 : n = 0
  · rw [if_pos h0]
    simp
  · rw [if_neg h0, List.length_map, List.length_reverse]
    by_contra hgt
    push_neg at hgt
    have h17 : 17 ≤ (Nat.digits 10 n).length := hgt
    have hle := Nat.base_pow_length_digits_le 10 n (by norm_num) h0
    have hpow : (10:Nat) ^ 17 ≤ 10 ^ (Nat.digits 10 n).length :=
      Nat.pow_le_pow_right (by norm_num) h17
    have h10n : (10:Nat) * 10 ^ 16 ≤ 10 * n := by
      calc (10:Nat) * 10 ^ 16 = 10 ^ 17 := by ring
        _ ≤ 10 ^ (Nat.digits 10 n).length := hpow
        _ ≤ 10 * n := hle
    have : (10:Nat) ^ 16 ≤ n := Nat.le_of_mul_le_mul_left h10n (by norm_num)
    omega

theorem take_ne_nil_of_one_le (l : List Nat) (j : Nat) (hl : l ≠ []) (hj : 1 ≤ j) :
    l.take j ≠ [] := by
  obtain ⟨x, xs, rfl⟩ := List.exists_cons_of_ne_nil hl
  obtain ⟨jp, rfl⟩ : ∃ jp, j = jp + 1 := ⟨j - 1, by omega⟩
  simp

/-- C3: for every word posted by `handleRecordUpdate`, the stored `_occurs_`
string is the comma-joined base-10 rendering of the word's index list, cut at
the last comma at or before byte 255 when the join exceeds 255 bytes; the
stored string is always at most 255 bytes, never ends in a comma, and its
comma-separated fields decode to a prefix of the index list (the whole list
whenever the encoding fits).  The bound `x < 10^16` reflects that positions
are JavaScript array indices below `2^53`. -/
theorem encodeOccurs_spec (l : List Nat) (hne : l ≠ []) (hb : ∀ x ∈ l, x < 10 ^ 16) :
    (encodeOccurs l).length ≤ 255
    ∧ (∀ c, (encodeOccurs l).getLast? = some c → c ≠ ',')
    ∧ (∃ j, 1 ≤ j ∧ j ≤ l.length ∧ decodeFields (encodeOccurs l) = l.take j)
    ∧ ((joinComma l).length ≤ 255 →
        encodeOccurs l = joinComma l ∧ decodeFields (encodeOccurs l) = l) := by
  by_cases hlen : (joinComma l).length > 255
  · have hl2 : ∃ a b t, l = a :: b :: t := by
      match l with
      | [] => exact absurd rfl hne
      | [n] =>
        exfalso
        have h16 : (joinComma [n]).length ≤ 16 := by
          show (decDigits n).length ≤ 16
          exact decDigits_length_le n (hb n (by simp))
        omega
      | a :: b :: t => exact ⟨a, b, t, rfl⟩
    obtain ⟨a, b, t, rfl⟩ := hl2
    have hsome : lastCommaLE (joinComma (a :: b :: t)) 255 ≠ none := by
      rw [joinComma_cons_cons,
        lastCommaLE_append (decDigits a) (decDigits_comma_free a) _ 255]
      have hda : (decDigits a).length ≤ 255 :=
        le_trans (decDigits_length_le a (hb a (by simp))) (by norm_num)
      rw [if_pos hda]
      intro hmap
      rw [Option.map_eq_none'] at hmap
      exact lastCommaLE_cons_comma _ _ hmap
    obtain ⟨c, hc⟩ := Option.ne_none_iff_exists'.mp hsome
    obtain ⟨j, hj1, hjlt, hclen, htake⟩ := lastCommaLE_joinComma _ 255 c hc
    have henc : encodeOccurs (a :: b :: t) = (joinComma (a :: b :: t)).take c := by
      show (if (joinComma (a :: b :: t)).length > 255 then
              match lastCommaLE (joinComma (a :: b :: t)) 255 with
              | some cutIndex => (joinComma (a :: b :: t)).take cutIndex
              | none => (joinComma (a :: b :: t)).take ((joinComma (a :: b :: t)).length - 1)
            else joinComma (a :: b :: t)) = (joinComma (a :: b :: t)).take c
      rw [if_pos hlen, hc]
    have htne : (a :: b :: t).take j ≠ [] := take_ne_nil_of_one_le _ j (by simp) hj1
    refine ⟨?_, ?_, ?_, ?_⟩
    · rw [henc]
      have hc255 := lastCommaLE_le _ 255 c hc
      calc ((joinComma (a :: b :: t)).take c).length
          ≤ c := by rw [List.length_take]; omega
        _ ≤ 255 := hc255
    · intro ch hch
      rw [henc, htake] at hch
      exact joinComma_getLast_ne_comma _ htne ch hch
    · refine ⟨j, hj1, by omega, ?_⟩
      rw [henc, htake]
      exact decodeFields_joinComma _ htne
    · intro h255
      omega
  · have henc : encodeOccurs l = joinComma l := by
      show (if (joinComma l).length > 255 then
              match lastCommaLE (joinComma l) 255 with
              | some cutIndex => (joinComma l).take cutIndex
              | none => (joinComma l).take ((joinComma l).length - 1)
            else joinComma l) = joinComma l
      rw [if_neg hlen]
    refine ⟨?_, ?_, ?_, fun _ => ⟨henc, ?_⟩⟩
    · rw [henc]
      omega
    · intro ch hch
      rw [henc] at hch
      exact joinComma_getLast_ne_comma l hne ch hch
    · refine ⟨l.length, ?_, le_rfl, ?_⟩
      · have := List.length_pos.mpr hne
        omega
      · rw [henc, List.take_length]
        exact decodeFields_joinComma l hne
    · rw [henc]
      exact decodeFields_joinComma l hne

/-- Witness for C3 at the index list `[0, 1]`. -/
theorem encodeOccurs_spec_witness :
    (([0, 1] : List Nat) ≠ [] ∧ (∀ x ∈ ([0, 1] : List Nat), x < 10 ^ 16))
    ∧ ((encodeOccurs [0, 1]).length ≤ 255
      ∧ (∀ c, (encodeOccurs [0, 1]).getLast? = some c → c ≠ ',')
      ∧ (∃ j, 1 ≤ j ∧ j ≤ ([0, 1] : List Nat).length
          ∧ decodeFields (encodeOccurs [0, 1]) = ([0, 1] : List Nat).take j)
      ∧ ((joinComma [0, 1]).length ≤ 255 →
          encodeOccurs [0, 1] = joinComma [0, 1]
          ∧ decodeFields (encodeOccurs [0, 1]) = [0, 1])) :=
  ⟨⟨by decide, by decide⟩, encodeOccurs_spec [0, 1] (by decide) (by decide)⟩

/-- C4 (code-bug evidence): the phrase checker decodes `_occurs_` with
`split(',').map(parseInt)`; `Array.prototype.map` passes the element index as
`parseInt`'s radix, so the stored encoding of positions `[1, 2]` decodes to
`[1, NaN]` (`parseInt('2', 1)` is `NaN`), while the specified field-wise
base-10 decoding recovers `[1, 2]`. -/
theorem decodeOccurs_radix_bug :
    decodeOccurs (encodeOccurs [1, 2]) = [some 1, none]
    ∧ decodeOccurs (encodeOccurs [1, 2]) ≠ [some 1, some 2]
    ∧ decodeFields (encodeOccurs [1, 2]) = [1, 2] := by
  refine ⟨by decide, by decide, by decide⟩

/-! ### OR-branch lemmas -/

theorem findOR_eq_none_cons (ch : Char) (A : List Char) (h : findOR (ch :: A) = none) :
    [' ', 'O', 'R', ' '].isPrefixOf (ch :: A) = false ∧ findOR A = none := by
  rw [findOR] at h
  by_cases hp : [' ', 'O', 'R', ' '].isPrefixOf (ch :: A) = true
  · rw [if_pos hp] at h
    exact absurd h (by simp)
  · have hp2 : [' ', 'O', 'R', ' '].isPrefixOf (ch :: A) = false := Bool.eq_false_iff.mpr hp
    rw [if_neg hp] at h
    rw [Option.map_eq_none'] at h
    exact ⟨hp2, h⟩

theorem sep_prefix_cons4_iff (a1 a2 a3 a4 : Char) (X : List Char) :
    ([' ', 'O', 'R', ' '].isPrefixOf (a1 :: a2 :: a3 :: a4 :: X) = true)
      ↔ (' ' = a1 ∧ 'O' = a2 ∧ 'R' = a3 ∧ ' ' = a4) := by
  rw [List.isPrefixOf_iff_prefix, List.cons_prefix_cons, List.cons_prefix_cons,
    List.cons_prefix_cons, List.cons_prefix_cons]
  simp [List.nil_prefix]

theorem sep_not_prefix_mid :
    ∀ (A B : List Char), A ≠ [] → findOR A = none →
      [' ', 'O', 'R'].isSuffixOf A = false →
      [' ', 'O', 'R', ' '].isPrefixOf (A ++ ([' ', 'O', 'R', ' '] ++ B)) = false
  | [], _, hne, _, _ => absurd rfl hne
  | [a1], B, _, _, _ => by
    have h2 : ['O', 'R', ' '].isPrefixOf (' ' :: 'O' :: 'R' :: ' ' :: B) = false := rfl
    show (' ' == a1 && ['O', 'R', ' '].isPrefixOf (' ' :: 'O' :: 'R' :: ' ' :: B)) = false
    rw [h2, Bool.and_false]
  | [a1, a2], B, _, _, _ => by
    have h2 : ['R', ' '].isPrefixOf (' ' :: 'O' :: 'R' :: ' ' :: B) = false := rfl
    show (' ' == a1 && ('O' == a2 && ['R', ' '].isPrefixOf (' ' :: 'O' :: 'R' :: ' ' :: B)))
        = false
    rw [h2, Bool.and_false, Bool.and_false]
  | [a1, a2, a3], B, _, _, hsfx => by
    have hsfx2 : ('R' == a3 && ('O' == a2 && (' ' == a1 && true))) = false := hsfx
    show (' ' == a1 && ('O' == a2 && ('R' == a3 && true))) = false
    cases h1 : (' ' == a1) <;> cases h2 : ('O' == a2) <;> cases h3 : ('R' == a3) <;>
      simp_all
  | a1 :: a2 :: a3 :: a4 :: rest, B, _, hA, _ => by
    have hp := (findOR_eq_none_cons a1 (a2 :: a3 :: a4 :: rest) hA).1
    rw [Bool.eq_false_iff] at hp ⊢
    intro htrue
    exact hp ((sep_prefix_cons4_iff a1 a2 a3 a4 rest).mpr
      ((sep_prefix_cons4_iff a1 a2 a3 a4 (rest ++ ([' ', 'O', 'R', ' '] ++ B))).mp htrue))

theorem findOR_append :
    ∀ (A : List Char), findOR A = none → [' ', 'O', 'R'].isSuffixOf A = false →
      ∀ B, findOR (A ++ ([' ', 'O', 'R', ' '] ++ B)) = some A.length
  | [], _, _, B => by
    rw [List.nil_append]
    show findOR (' ' :: 'O' :: 'R' :: ' ' :: B) = some 0
    rw [findOR, if_pos (by
      rw [List.isPrefixOf_iff_prefix]
      exact List.prefix_append [' ', 'O', 'R', ' '] B)]
  | ch :: A, hA, hsfx, B => by
    obtain ⟨hp, hAnone⟩ := findOR_eq_none_cons ch A hA
    have hsfx2 : [' ', 'O', 'R'].isSuffixOf A = false := by
      cases hcs : [' ', 'O', 'R'].isSuffixOf A
      · rfl
      · exfalso
        have htrue : [' ', 'O', 'R'].isSuffixOf (ch :: A) = true := by
          rw [List.isSuffixOf_iff_suffix] at hcs ⊢
          exact hcs.trans (List.suffix_cons ch A)
        rw [htrue] at hsfx
        cases hsfx
    have hnp : [' ', 'O', 'R', ' '].isPrefixOf
        (ch :: (A ++ ([' ', 'O', 'R', ' '] ++ B))) = false := by
      rw [← List.cons_append]
      exact sep_not_prefix_mid (ch :: A) B (by simp) hA hsfx
    rw [List.cons_append, findOR, if_neg (by rw [hnp]; simp),
      findOR_append A hAnone hsfx2 B]
    rfl

theorem splitORAux_none (fuel : Nat) (s : List Char) (h : findOR s = none) :
    splitORAux fuel s = [s] := by
  cases fuel with
  | zero => rfl
  | succ f =>
    rw [splitORAux, h]

/-- C5 counterexample: with `A = "x OR"` (which does not contain `' OR '`) and
`B = "y"`, the combined query string is `"x OR OR y"`, which splits at its
leftmost `' OR '` into the branches `"x"` and `"OR y"` rather than `[A, B]`.
With the realizable branch oracle `qOne` (an index holding one record whose
text is the single word `x`), the query returns that record while the union
of the `A` and `B` branch results is empty, refuting the claimed equality. -/
theorem containsOR_counterexample :
    findOR ['x', ' ', 'O', 'R'] = none
    ∧ findOR ['y'] = none
    ∧ containsOR qOne (['x', ' ', 'O', 'R'] ++ ([' ', 'O', 'R', ' '] ++ ['y']))
        ≠ some { results := mergeInto (qOne ['x', ' ', 'O', 'R']).results (qOne ['y']).results
                 hints := (qOne ['x', ' ', 'O', 'R']).hints ++ (qOne ['y']).hints } := by
  refine ⟨by decide, by decide, by decide⟩

/-- C5 (amended): for branch queries `A` and `B` that do not contain `' OR '`,
with the extra proviso (forced by the counterexample) that `A` does not end
with `' OR'`, querying `'A OR B'` with the contains operator returns exactly
the union by record path of the two branch results, preserving the order of
first occurrence, with the hints of both branch result sets concatenated onto
the merged result.  The oracle `q` stands for the recursive branch query. -/
theorem containsOR_or_union (q : List Char → QRes) (A B : List Char)
    (hA : findOR A = none) (hB : findOR B = none)
    (hAe : [' ', 'O', 'R'].isSuffixOf A = false) :
    containsOR q (A ++ ([' ', 'O', 'R', ' '] ++ B))
      = some { results := mergeInto (q A).results (q B).results
               hints := (q A).hints ++ (q B).hints } := by
  have hfind := findOR_append A hA hAe B
  have hsplit : splitOR (A ++ ([' ', 'O', 'R', ' '] ++ B)) = [A, B] := by
    rw [splitOR]
    show (match findOR (A ++ ([' ', 'O', 'R', ' '] ++ B)) with
          | none => [A ++ ([' ', 'O', 'R', ' '] ++ B)]
          | some i =>
            (A ++ ([' ', 'O', 'R', ' '] ++ B)).take i
              :: splitORAux (A ++ ([' ', 'O', 'R', ' '] ++ B)).length
                ((A ++ ([' ', 'O', 'R', ' '] ++ B)).drop (i + 4))) = [A, B]
    rw [hfind]
    show (A ++ ([' ', 'O', 'R', ' '] ++ B)).take A.length
        :: splitORAux (A ++ ([' ', 'O', 'R', ' '] ++ B)).length
          ((A ++ ([' ', 'O', 'R', ' '] ++ B)).drop (A.length + 4)) = [A, B]
    rw [List.take_left, List.drop_append 4]
    rw [show ([' ', 'O', 'R', ' '] ++ B).drop 4 = B from rfl]
    rw [splitORAux_none _ B hB]
  rw [containsOR, hfind]
  simp only [Option.isSome_some, if_true]
  rw [hsplit]
  rfl

/-- Witness for the amended C5 at `A = "a"`, `B = "b"`. -/
theorem containsOR_or_union_witness :
    containsOR qOne (['a'] ++ ([' ', 'O', 'R', ' '] ++ ['b']))
      = some { results := mergeInto (qOne ['a']).results (qOne ['b']).results
               hints := (qOne ['a']).hints ++ (qOne ['b']).hints } :=
  containsOR_or_union qOne ['a'] ['b'] (by decide) (by decide) (by decide)

/-! ### `test` OR-branch lemmas -/

theorem testFn_string_obj (proto : String → Option JValue) (key : String)
    (getInfo : List Char → TextInfo) (f2 : Nat) (s : List Char) (b : List Char)
    (hstr : strGet proto s key = none) :
    testFn proto key getInfo (f2 + 1) (JValue.vstr s) FtOp.contains b = some false := by
  rw [testFn]
  rw [if_neg (by simp [isNull])]
  rw [show objGet proto (JValue.vstr s) key = strGet proto s key from rfl, hstr]
  rfl

/-- C10 counterexample: the original all-keys claim fails when the indexed
key is itself a property of JS strings.  With index key `"0"`, the record
`{"0": "a b"}` and the query `"a OR a"`, the OR recursion passes the text
string `"a b"` as the object, the lookup `"a b"["0"]` yields the defined
one-character string `"a"`, and the branch test finds the word `a` in it, so
`test` returns `true`, not `false`, although the object is non-null, its
indexed key holds a string and the value contains `' OR '`. -/
theorem testFn_or_counterexample :
    (objGet (fun _ => none) (JValue.vobj [("0", JValue.vstr ['a', ' ', 'b'])]) "0"
        = some (JValue.vstr ['a', ' ', 'b']))
    ∧ (findOR ['a', ' ', 'O', 'R', ' ', 'a']).isSome = true
    ∧ testFn (fun _ => none) "0" getInfoA 3
        (JValue.vobj [("0", JValue.vstr ['a', ' ', 'b'])]) FtOp.contains
        ['a', ' ', 'O', 'R', ' ', 'a'] = some true := by
  refine ⟨rfl, rfl, rfl⟩

/-- C10 (amended): for every non-null object whose indexed key holds a string
value and every query value containing `' OR '`, provided the indexed key is
not a property of the text string (not `'length'`, not a canonical in-range
numeric index, nor a `String.prototype` member), the in-memory predicate
`test(obj, 'fulltext:contains', val)` returns `false` regardless of whether
the text contains the words of any branch: each branch is evaluated
recursively with the extracted text string passed in place of the record
object, and the string's indexed-key lookup is then `undefined`, so every
branch test reports no match. -/
theorem testFn_or_false (proto : String → Option JValue) (key : String)
    (getInfo : List Char → TextInfo)
    (fields : List (String × JValue)) (s : List Char) (val : List Char) (fuel : Nat)
    (hkey : fields.lookup key = some (JValue.vstr s))
    (hstr : strGet proto s key = none)
    (hor : (findOR val).isSome = true) (hfuel : 2 ≤ fuel) :
    testFn proto key getInfo fuel (JValue.vobj fields) FtOp.contains val = some false := by
  obtain ⟨f2, rfl⟩ : ∃ f2, fuel = f2 + 2 := ⟨fuel - 2, by omega⟩
  have hany : ∀ l : List (List Char),
      anyOption (fun branch => testFn proto key getInfo (f2 + 1) (JValue.vstr s)
        FtOp.contains branch) l = some false := by
    intro l
    induction l with
    | nil => rfl
    | cons b rest ih =>
      rw [anyOption, testFn_string_obj proto key getInfo f2 s b hstr]
      exact ih
  rw [show f2 + 2 = (f2 + 1) + 1 from rfl, testFn]
  rw [if_neg (by simp [isNull])]
  rw [show objGet proto (JValue.vobj fields) key = fields.lookup key from rfl, hkey]
  show (if (findOR val).isSome then
          anyOption (fun branch => testFn proto key getInfo (f2 + 1) (JValue.vstr s)
            FtOp.contains branch) (splitOR val)
        else if val.contains '"' then
          let textInfo := getInfo s
          let ep := extractPhrases val
          let phrases := if 0 < ep.2.length then ep.1 ++ [ep.2] else ep.1
          allOption (fun phrase => testPhrase getInfo textInfo (f2 + 1) phrase) phrases
        else
          some (testBare getInfo (getInfo s) val)) = some false
  rw [if_pos hor]
  exact hany (splitOR val)

/-- Witness for the amended C10: object `{text: "a"}`, query `"a OR b"`, the
key `text` being no property of the string `"a"`. -/
theorem testFn_or_false_witness :
    testFn (fun _ => none) "text" (fun _ => { words := [], ignored := [] }) 2
        (JValue.vobj [("text", JValue.vstr ['a'])]) FtOp.contains
        ['a', ' ', 'O', 'R', ' ', 'b'] = some false :=
  testFn_or_false (fun _ => none) "text" (fun _ => { words := [], ignored := [] })
    [("text", JValue.vstr ['a'])] ['a'] ['a', ' ', 'O', 'R', ' ', 'b'] 2
    rfl rfl (by decide) (by omega)

/-! ### Tokenizer lemmas -/

theorem addOccur_indexes_sub :
    ∀ (ws : List WordInfo) (w : String) (wi si : Nat),
      ∀ e2 ∈ addOccur ws w wi si, ∀ i ∈ e2.indexes, (∃ e ∈ ws, i ∈ e.indexes) ∨ i = wi
  | [], w, wi, si => by
    intro e2 he2 i hi
    rw [addOccur] at he2
    have he : e2 = { word := w, indexes := [wi], sourceIndexes := [si] } :=
      List.mem_singleton.mp he2
    subst he
    simp only [List.mem_singleton] at hi
    exact Or.inr hi
  | e :: rest, w, wi, si => by
    intro e2 he2 i hi
    rw [addOccur] at he2
    by_cases hw : e.word = w
    · rw [if_pos hw] at he2
      rcases List.mem_cons.mp he2 with heq | hmem
      · subst heq
        simp only [List.mem_append, List.mem_singleton] at hi
        rcases hi with hi | hi
        · exact Or.inl ⟨e, List.mem_cons_self e rest, hi⟩
        · exact Or.inr hi
      · exact Or.inl ⟨e2, List.mem_cons_of_mem _ hmem, hi⟩
    · rw [if_neg hw] at he2
      rcases List.mem_cons.mp he2 with heq | hmem
      · subst heq
        exact Or.inl ⟨e2, List.mem_cons_self e2 rest, hi⟩
      · rcases addOccur_indexes_sub rest w wi si e2 hmem i hi with ⟨e3, he3, hi3⟩ | hwi
        · exact Or.inl ⟨e3, List.mem_cons_of_mem _ he3, hi3⟩
        · exact Or.inr hwi

theorem addOccur_inv :
    ∀ (ws : List WordInfo) (w : String) (wi si : Nat),
      (∀ e ∈ ws, List.Chain' (· < ·) e.indexes) →
      (∀ e ∈ ws, ∀ i ∈ e.indexes, i < wi) →
      ws.Pairwise (fun e1 e2 => ∀ i, i ∈ e1.indexes → i ∉ e2.indexes) →
      (∀ e ∈ ws, e.indexes.length = e.sourceIndexes.length) →
      ((∀ e ∈ addOccur ws w wi si, List.Chain' (· < ·) e.indexes)
        ∧ (∀ e ∈ addOccur ws w wi si, ∀ i ∈ e.indexes, i < wi + 1)
        ∧ (addOccur ws w wi si).Pairwise
            (fun e1 e2 => ∀ i, i ∈ e1.indexes → i ∉ e2.indexes)
        ∧ (∀ e ∈ addOccur ws w wi si, e.indexes.length = e.sourceIndexes.length))
  | [], w, wi, si, _, _, _, _ => by
    refine ⟨?_, ?_, ?_, ?_⟩
    · intro e he
      rw [addOccur] at he
      have he2 := List.mem_singleton.mp he
      subst he2
      simp
    · intro e he i hi
      rw [addOccur] at he
      have he2 := List.mem_singleton.mp he
      subst he2
      simp only [List.mem_singleton] at hi
      omega
    · rw [addOccur]
      simp
    · intro e he
      rw [addOccur] at he
      have he2 := List.mem_singleton.mp he
      subst he2
      rfl
  | e :: rest, w, wi, si, h1, h2, h3, h4 => by
    rcases List.pairwise_cons.mp h3 with ⟨hR, hrest⟩
    by_cases hw : e.word = w
    · have hres : addOccur (e :: rest) w wi si
          = { word := e.word, indexes := e.indexes ++ [wi]
              sourceIndexes := e.sourceIndexes ++ [si] } :: rest := by
        rw [addOccur, if_pos hw]
      rw [hres]
      refine ⟨?_, ?_, ?_, ?_⟩
      · intro e2 he2
        rcases List.mem_cons.mp he2 with heq | hmem
        · subst heq
          show List.Chain' (· < ·) (e.indexes ++ [wi])
          rw [List.chain'_append]
          refine ⟨h1 e (List.mem_cons_self e rest), List.chain'_singleton wi, ?_⟩
          intro x hx y hy
          simp only [List.head?_cons, Option.mem_def, Option.some.injEq] at hy
          obtain ⟨hne, hxl⟩ := List.mem_getLast?_eq_getLast hx
          subst hy
          exact h2 e (List.mem_cons_self e rest) x (hxl ▸ List.getLast_mem hne)
        · exact h1 e2 (List.mem_cons_of_mem _ hmem)
      · intro e2 he2 i hi
        rcases List.mem_cons.mp he2 with heq | hmem
        · subst heq
          simp only [List.mem_append, List.mem_singleton] at hi
          rcases hi with hi | hi
          · have := h2 e (List.mem_cons_self e rest) i hi
            omega
          · omega
        · have := h2 e2 (List.mem_cons_of_mem _ hmem) i hi
          omega
      · rw [List.pairwise_cons]
        refine ⟨?_, hrest⟩
        intro e2 hmem i hi
        simp only [List.mem_append, List.mem_singleton] at hi
        rcases hi with hi | hi
        · exact hR e2 hmem i hi
        · intro hcon
          have hlt := h2 e2 (List.mem_cons_of_mem _ hmem) i hcon
          omega
      · intro e2 he2
        rcases List.mem_cons.mp he2 with heq | hmem
        · subst heq
          show (e.indexes ++ [wi]).length = (e.sourceIndexes ++ [si]).length
          simp [h4 e (List.mem_cons_self e rest)]
        · exact h4 e2 (List.mem_cons_of_mem _ hmem)
    · have hres : addOccur (e :: rest) w wi si = e :: addOccur rest w wi si := by
        rw [addOccur, if_neg hw]
      rw [hres]
      have h1r : ∀ e2 ∈ rest, List.Chain' (· < ·) e2.indexes :=
        fun e2 he2 => h1 e2 (List.mem_cons_of_mem _ he2)
      have h2r : ∀ e2 ∈ rest, ∀ i ∈ e2.indexes, i < wi :=
        fun e2 he2 => h2 e2 (List.mem_cons_of_mem _ he2)
      have h4r : ∀ e2 ∈ rest, e2.indexes.length = e2.sourceIndexes.length :=
        fun e2 he2 => h4 e2 (List.mem_cons_of_mem _ he2)
      obtain ⟨ih1, ih2, ih3, ih4⟩ := addOccur_inv rest w wi si h1r h2r hrest h4r
      refine ⟨?_, ?_, ?_, ?_⟩
      · intro e2 he2
        rcases List.mem_cons.mp he2 with heq | hmem
        · subst heq
          exact h1 e2 (List.mem_cons_self e2 rest)
        · exact ih1 e2 hmem
      · intro e2 he2 i hi
        rcases List.mem_cons.mp he2 with heq | hmem
        · subst heq
          have := h2 e2 (List.mem_cons_self e2 rest) i hi
          omega
        · exact ih2 e2 hmem i hi
      · rw [List.pairwise_cons]
        refine ⟨?_, ih3⟩
        intro e2 hmem i hi hcon
        rcases addOccur_indexes_sub rest w wi si e2 hmem i hcon with ⟨e3, he3, hi3⟩ | hwi
        · exact hR e3 he3 i hi hi3
        · subst hwi
          have := h2 e (List.mem_cons_self e rest) i hi
          omega
      · intro e2 he2
        rcases List.mem_cons.mp he2 with heq | hmem
        · subst heq
          exact h4 e2 (List.mem_cons_self e2 rest)
        · exact ih4 e2 hmem

theorem keepWord_inv (st : TokenizeState) (w : String) (si : Nat) (h : StInv st) :
    StInv (keepWord st w si) := by
  obtain ⟨h1, h2, h3, h4⟩ := h
  obtain ⟨a1, a2, a3, a4⟩ := addOccur_inv st.words w st.wordIndex si h1 h2 h3 h4
  exact ⟨a1, a2, a3, a4⟩

theorem criteriaStep_inv (opts : TokenizeOptions) (st : TokenizeState) (w1 : String)
    (si : Nat) (h : StInv st) : StInv (criteriaStep opts st w1 si) := by
  rw [criteriaStep]
  by_cases hc : (opts.lower w1).length < opts.minLength
      ∨ opts.blacklist.contains (opts.lower w1)
  · rw [if_pos hc]
    by_cases hwl : opts.whitelist.contains (opts.lower w1)
    · rw [if_pos hwl]
      exact keepWord_inv st _ si h
    · rw [if_neg hwl]
      exact h
  · rw [if_neg hc]
    exact keepWord_inv st _ si h

theorem processMatch_inv (opts : TokenizeOptions) (st : TokenizeState)
    (m : String × Nat) (h : StInv st) : StInv (processMatch opts st m) := by
  show StInv (match (match opts.stemming with | none => some m.1 | some f => f m.1) with
    | none => { st with ignored := pushIgnored st.ignored m.1 }
    | some w1 => criteriaStep opts st w1 m.2)
  cases (match opts.stemming with | none => some m.1 | some f => f m.1) with
  | none => exact h
  | some w1 => exact criteriaStep_inv opts st w1 m.2 h

theorem foldl_processMatch_inv (opts : TokenizeOptions) :
    ∀ (ms : List (String × Nat)) (st : TokenizeState), StInv st →
      StInv (ms.foldl (processMatch opts) st)
  | [], _, h => h
  | m :: rest, st, h =>
    foldl_processMatch_inv opts rest (processMatch opts st m) (processMatch_inv opts st m h)

theorem foldl_add_occurs (l : List WordInfo) :
    ∀ n : Nat, l.foldl (fun total e => total + e.occurs) n
      = n + (l.map (fun e => e.occurs)).sum := by
  induction l with
  | nil => intro n; simp
  | cons e rest ih =>
    intro n
    rw [List.foldl_cons, ih, List.map_cons, List.sum_cons]
    omega

/-- C8: for every tokenizer configuration and regex match stream, the
constructed `TextInfo` satisfies: `wordCount` equals the sum of `occurs` over
all `WordInfo` entries, every `WordInfo.indexes` list is strictly increasing,
the index sets of distinct `WordInfo` entries are pairwise disjoint, and
`indexes` and `sourceIndexes` have equal length in every entry. -/
theorem tokenize_invariants (opts : TokenizeOptions) (ms : List (String × Nat)) :
    wordCount (tokenize opts ms)
      = ((tokenize opts ms).words.map (fun e => e.occurs)).sum
    ∧ (∀ e ∈ (tokenize opts ms).words, List.Chain' (· < ·) e.indexes)
    ∧ (tokenize opts ms).words.Pairwise
        (fun e1 e2 => ∀ i, i ∈ e1.indexes → i ∉ e2.indexes)
    ∧ (∀ e ∈ (tokenize opts ms).words, e.indexes.length = e.sourceIndexes.length) := by
  have hinv := foldl_processMatch_inv opts ms
    { words := [], ignored := [], wordIndex := 0 }
    ⟨by simp, by simp, by simp, by simp⟩
  obtain ⟨h1, h2, h3, h4⟩ := hinv
  refine ⟨?_, h1, h3, h4⟩
  rw [wordCount, foldl_add_occurs]
  omega

/-! ### Bare-words zero-count lemmas -/

theorem sortedCounts_perm (words : List String) (count : String → Nat) :
    (sortedCounts words count).Perm
      (words.map (fun w => ({ word := w, count := count w } : CountEntry))) :=
  List.perm_insertionSort _ _

theorem sortedCounts_sorted (words : List String) (count : String → Nat) :
    List.Sorted (fun a b : CountEntry => a.count ≤ b.count) (sortedCounts words count) :=
  List.sorted_insertionSort _ _

/-- C7: in the bare-words contains path, when the substrate count of at least
one surviving query word is zero, the query produces an empty result set, no
substrate query call is issued for any word, the empty result is cached under
`(op, val)`, and the hints are the ignored-word hints followed by exactly one
missing-word hint per zero-count word (the missing-hint words are a
permutation of the zero-count words). -/
theorem bareContains_zero_count (op val : String) (ignored words : List String)
    (count : String → Nat)
    (qf : String → Option (List QueryResult) → List QueryResult) (phrase : Bool)
    (w0 : String) (hw0 : w0 ∈ words) (hz : count w0 = 0) :
    (bareContains op val ignored words count qf phrase).results = []
    ∧ (bareContains op val ignored words count qf phrase).substrateQueries = []
    ∧ (bareContains op val ignored words count qf phrase).cacheWrites = [(op, val)]
    ∧ ∃ missing : List String,
        (bareContains op val ignored words count qf phrase).hints
          = ignored.map ignoredHint ++ missing.map missingHint
        ∧ missing.Perm (words.filter (fun w => count w == 0)) := by
  have hne : words.isEmpty = false := by
    cases words with
    | nil => cases hw0
    | cons a l => rfl
  have hperm := sortedCounts_perm words count
  have hmem0 : ({ word := w0, count := count w0 } : CountEntry) ∈ sortedCounts words count :=
    hperm.mem_iff.mpr (List.mem_map_of_mem _ hw0)
  obtain ⟨c0, rest, hsc⟩ :=
    List.exists_cons_of_ne_nil (List.ne_nil_of_mem hmem0)
  have hc0 : c0.count = 0 := by
    have hsorted := sortedCounts_sorted words count
    rw [hsc] at hsorted hmem0
    rcases List.mem_cons.mp hmem0 with heq | hmemr
    · rw [← heq]
      exact hz
    · have hle := (List.sorted_cons.mp hsorted).1 _ hmemr
      have hle2 : c0.count ≤ count w0 := hle
      omega
  have hhead : ((sortedCounts words count).head?.map (fun c => c.count)) = some 0 := by
    rw [hsc]
    simp [hc0]
  have hout : bareContains op val ignored words count qf phrase
      = { results := []
          hints := ignored.map ignoredHint
            ++ ((sortedCounts words count).filter (fun c => c.count == 0)).map
              (fun c => missingHint c.word)
          cacheWrites := [(op, val)]
          substrateQueries := [] } := by
    simp only [bareContains]
    rw [hne]
    rw [if_neg (by simp)]
    rw [if_pos hhead]
  refine ⟨by rw [hout], by rw [hout], by rw [hout],
    ⟨((sortedCounts words count).filter (fun c => c.count == 0)).map (fun c => c.word),
      ?_, ?_⟩⟩
  · rw [hout]
    show _ = ignored.map ignoredHint ++ _
    rw [List.map_map]
    rfl
  · have h1 := (hperm.filter (fun c => c.count == 0)).map (fun c => c.word)
    have h2 : ((words.map (fun w => ({ word := w, count := count w } : CountEntry))).filter
        (fun c => c.count == 0))
        = (words.filter (fun w => count w == 0)).map
          (fun w => ({ word := w, count := count w } : CountEntry)) := by
      rw [List.filter_map]
      rfl
    rw [h2, List.map_map] at h1
    have h3 : ((fun c : CountEntry => c.word)
        ∘ fun w => ({ word := w, count := count w } : CountEntry)) = fun w : String => w := rfl
    rw [h3, List.map_id'] at h1
    exact h1

/-- Witness for C7: one word `brown` whose substrate count is `0`. -/
theorem bareContains_zero_count_witness :
    (bareContains "fulltext:contains" "brown" [] ["brown"] (fun _ => 0)
        (fun _ _ => []) false).results = []
    ∧ (bareContains "fulltext:contains" "brown" [] ["brown"] (fun _ => 0)
        (fun _ _ => []) false).substrateQueries = []
    ∧ (bareContains "fulltext:contains" "brown" [] ["brown"] (fun _ => 0)
        (fun _ _ => []) false).cacheWrites = [("fulltext:contains", "brown")]
    ∧ ∃ missing : List String,
        (bareContains "fulltext:contains" "brown" [] ["brown"] (fun _ => 0)
            (fun _ _ => []) false).hints
          = ([] : List String).map ignoredHint ++ missing.map missingHint
        ∧ missing.Perm (["brown"].filter (fun w => (fun _ : String => 0) w == 0)) :=
  bareContains_zero_count "fulltext:contains" "brown" [] ["brown"] (fun _ => 0)
    (fun _ _ => []) false "brown" (by simp) rfl

/-! ### Wildcard pruning lemmas -/

theorem wildcardLoop_none (arr : List String) (w : String) (hw : w ∈ arr)
    (hwild : isWildcardsOnly w = true) :
    ∀ (fuel : Nat) (st : PruneState), wildcardLoop fuel arr st = none := by
  have hfind : (arr.find? isWildcardsOnly).isSome := by
    rw [List.find?_isSome]
    exact ⟨w, hw, hwild⟩
  intro fuel
  induction fuel with
  | zero => intro st; rfl
  | succ f ih =>
    intro st
    obtain ⟨v, hv⟩ := Option.isSome_iff_exists.mp hfind
    rw [wildcardLoop, hv]
    exact ih _

/-- C6 (code-bug evidence): the wildcard-only pruning loop scans the snapshot
array `words` obtained before the loop, but only deletes from the `TextInfo`
map, so the same index is found again forever: whenever the snapshot contains
a wildcard-only token the loop never terminates (no fuel suffices), instead
of removing the token once and recording it as ignored.  Moreover a token
whose first `*` is at position `0` is never pruned by the
minimum-wildcard-length loop (its guard requires `starIndex > 0`), although
its first `*` position is below the minimum length. -/
theorem getTextInfo_wildcard_prune_bug (arr : List String) (w : String)
    (hw : w ∈ arr) (hwild : isWildcardsOnly w = true)
    (u : String) (hu : starIndex u = some 0) (minLen : Nat) (st : PruneState) :
    (∀ (fuel : Nat) (st2 : PruneState), wildcardLoop fuel arr st2 = none)
    ∧ minWildcardPrune minLen [u] st = st := by
  constructor
  · exact fun fuel st2 => wildcardLoop_none arr w hw hwild fuel st2
  · rw [minWildcardPrune]
    by_cases hm : 0 < minLen
    · rw [if_pos hm]
      show (match starIndex u with
            | some si =>
              if 0 < si ∧ si < minLen then
                { words := st.words.filter (fun e => !(e.word == u))
                  ignored := st.ignored ++ [u] }
              else st
            | none => st) = st
      rw [hu]
      show (if 0 < 0 ∧ 0 < minLen then
              { words := st.words.filter (fun e => !(e.word == u))
                ignored := st.ignored ++ [u] }
            else st) = st
      rw [if_neg (by simp)]
    · rw [if_neg hm]

/-- Witness for C6 at the query tokens `*` (wildcard-only, loops forever) and
`*ab` (leading star, not pruned). -/
theorem getTextInfo_wildcard_prune_bug_witness :
    (∀ (fuel : Nat) (st2 : PruneState), wildcardLoop fuel ["*"] st2 = none)
    ∧ minWildcardPrune 2 ["*ab"] { words := [], ignored := [] }
        = { words := [], ignored := [] } :=
  getTextInfo_wildcard_prune_bug ["*"] "*" (by simp) (by decide) "*ab" (by decide) 2
    { words := [], ignored := [] }

/-- C9: `query(op, val)` succeeds only for `op` equal to `'fulltext:contains'`
or `'fulltext:!contains'`; a `BlacklistingSearchOperator` argument fails with
the not-implemented error and any other operator string fails with the
unsupported-operator error, in both cases without delegating to the substrate
(the error branches carry no delegation). -/
theorem queryDispatch_spec (val : String) :
    queryDispatch .blacklisting val = .error .notImplemented
    ∧ (∀ s : String, s ≠ "fulltext:contains" → s ≠ "fulltext:!contains" →
        queryDispatch (.str s) val = .error .unsupportedOperator)
    ∧ (∀ s : String, (∃ r, queryDispatch (.str s) val = .ok r) ↔
        (s = "fulltext:contains" ∨ s = "fulltext:!contains")) := by
  refine ⟨rfl, ?_, ?_⟩
  · intro s h1 h2
    simp [queryDispatch, h1, h2]
  · intro s
    constructor
    · rintro ⟨r, hr⟩
      by_contra hvalid
      rw [queryDispatch, if_neg hvalid] at hr
      exact Except.noConfusion hr
    · intro hvalid
      exact ⟨(s, val), by simp [queryDispatch, hvalid]⟩

/-- Witness for C9 at concrete operators. -/
theorem queryDispatch_spec_witness :
    queryDispatch (.str ("like")) ("brown") = .error .unsupportedOperator :=
  (queryDispatch_spec ("brown")).2.1 "like" (by decide) (by decide)

end FullText
